import Mathlib

/-!
Verification of the network-analysis library (graph data model, random and
scale-free generators, degree-distribution statistics).

The Python classes `Node` and `Network` (node.py, network.py) are embedded
shallowly: a node identifier is either an integer or a string; a network is
the insertion-ordered list of node identifiers together with an adjacency
function giving each node its set of neighbour identifiers (Python stores
`Node` objects in a dict and a `set`, but `Node.__eq__`/`__hash__` identify a
node with its identifier, so identifier-level adjacency is the same model).
Mutating methods return the post-state paired with an optional error message:
`(g', some e)` means the Python method raised `e` leaving state `g'` (which
exposes any partial update), `(g', none)` means it returned normally.
-/

/-- Identifier of a node: Python allows `int` or `str` identifiers. -/
inductive Ident where
  | int : Int → Ident
  | str : String → Ident
deriving DecidableEq, Repr

/-- State of `Network` (network.py): insertion-ordered node identifiers, the
adjacency (`Node.neighbour_nodes` of each node, as identifiers; identifiers
never added as nodes carry the empty adjacency), and the two construction
flags. -/
structure Network where
  keys : List Ident
  adj : Ident → List Ident
  undirected : Bool
  allow_self_edges : Bool

/-- `Network.__init__`: empty node dict with the two flags. -/
def emptyNetwork (undirected allow_self_edges : Bool) : Network :=
  ⟨[], fun _ => [], undirected, allow_self_edges⟩

/-- `Network.size`: number of nodes. -/
def Network.size (g : Network) : Nat := g.keys.length

/-- `Node.degree`: number of neighbour nodes. -/
def Network.degree (g : Network) (i : Ident) : Nat := (g.adj i).length

/-- The loop of `Network.number_edges`: sum of all node degrees. -/
def Network.degreeSum (g : Network) : Nat :=
  (g.keys.map (fun i => g.degree i)).sum

/-- `Network.number_edges`: the degree sum, halved (integer division) when the
network is undirected. -/
def Network.number_edges (g : Network) : Nat :=
  if g.undirected = false then g.degreeSum else g.degreeSum / 2

/-- `Network.has_node`. -/
def Network.has_node (g : Network) (i : Ident) : Bool := decide (i ∈ g.keys)

/-- `Network.add_node` applied to a freshly constructed `Node(i)` (as every
construction site in the repository does): raises if the identifier exists,
otherwise appends the node with an empty neighbour set. -/
def Network.add_node (g : Network) (i : Ident) : Network × Option String :=
  if i ∈ g.keys then
    (g, some "Network add node: TThe network already has node with identifier")
  else
    ({ g with keys := g.keys ++ [i], adj := fun x => if x = i then [] else g.adj x }, none)

/-- Core of `Network.edge_exists` once both nodes are resolved: both
directions for undirected networks, one direction for directed ones. -/
def Network.edge_existsB (g : Network) (a b : Ident) : Bool :=
  if g.undirected then decide (b ∈ g.adj a) && decide (a ∈ g.adj b)
  else decide (b ∈ g.adj a)

/-- `Network.edge_exists`: resolves both endpoints through `get_node` (raising
`KeyError` on a missing node, first endpoint checked first), then tests
adjacency according to directedness. -/
def Network.edge_exists (g : Network) (a b : Ident) : Except String Bool :=
  if a ∈ g.keys then
    if b ∈ g.keys then .ok (g.edge_existsB a b)
    else .error "Network get node: There is no matching node in the network."
  else .error "Network get node: There is no matching node in the network."

/-- Overwrite the neighbour set of one node (a `Node.neighbour_nodes`
mutation). -/
def Network.updateAdj (g : Network) (a : Ident) (l : List Ident) : Network :=
  { g with adj := fun x => if x = a then l else g.adj x }

/-- `Network.add_edge`: resolve both endpoints, reject disallowed self-edges,
then `node_1.add_edge(node_2)` (raising if already present), and for
undirected non-self edges also `node_2.add_edge(node_1)` on the updated
state. An error in that second step would leave the first insertion in
place. -/
def Network.add_edge (g : Network) (a b : Ident) : Network × Option String :=
  if a ∉ g.keys then
    (g, some "Network get node: There is no matching node in the network.")
  else if b ∉ g.keys then
    (g, some "Network get node: There is no matching node in the network.")
  else if a = b ∧ g.allow_self_edges = false then
    (g, some "Network add edge: the network should not contain self-edges")
  else if b ∈ g.adj a then
    (g, some "Add edge error: The edge already exists.")
  else
    let g1 := g.updateAdj a (b :: g.adj a)
    if g.undirected = true ∧ a ≠ b then
      if a ∈ g1.adj b then (g1, some "Add edge error: The edge already exists.")
      else (g1.updateAdj b (a :: g1.adj b), none)
    else (g1, none)

/-- `Network.remove_edge`: resolve both endpoints, `node_1.remove_edge(node_2)`
(raising if absent), and for undirected non-self edges also
`node_2.remove_edge(node_1)` on the updated state. -/
def Network.remove_edge (g : Network) (a b : Ident) : Network × Option String :=
  if a ∉ g.keys then
    (g, some "Network get node: There is no matching node in the network.")
  else if b ∉ g.keys then
    (g, some "Network get node: There is no matching node in the network.")
  else if b ∉ g.adj a then
    (g, some "Remove edge error: The edge does not exist.")
  else
    let g1 := g.updateAdj a ((g.adj a).erase b)
    if g.undirected = true ∧ a ≠ b then
      if a ∉ g1.adj b then (g1, some "Remove edge error: The edge does not exist.")
      else (g1.updateAdj b ((g1.adj b).erase a), none)
    else (g1, none)

/-- `Network.max_degree`: `max` of all node degrees with default 0. -/
def Network.max_degree (g : Network) : Nat :=
  (g.keys.map (fun i => g.degree i)).foldr max 0

/-- `Network.degree_histogram`: a zero list of length `max_degree + 1`, then
one increment at each node's degree. -/
def Network.degree_histogram (g : Network) : List Nat :=
  g.keys.foldl (fun h i => h.set (g.degree i) (h.getD (g.degree i) 0 + 1))
    (List.replicate (g.max_degree + 1) 0)

/-- `Network.normalized_degree_distribution`: `[1.0]` for the empty network,
otherwise each histogram bucket divided by the node count (numbers modelled
exactly as rationals). -/
def Network.normalized_degree_distribution (g : Network) : List ℚ :=
  if g.size = 0 then [1] else
  g.degree_histogram.map (fun c : Nat => (c : ℚ) / (g.size : ℚ))

/-- Invariants of the graph data model (spec §3): unique identifiers,
neighbour collections are sets over existing nodes, undirected adjacency is
symmetric between distinct nodes, and no self-neighbour when self-edges are
disallowed. -/
def Network.WF (g : Network) : Prop :=
  g.keys.Nodup ∧
  (∀ a ∈ g.keys, (g.adj a).Nodup) ∧
  (∀ a ∈ g.keys, ∀ b ∈ g.adj a, b ∈ g.keys) ∧
  (g.undirected = true → ∀ a ∈ g.keys, ∀ b ∈ g.keys, a ≠ b → (b ∈ g.adj a ↔ a ∈ g.adj b)) ∧
  (g.allow_self_edges = false → ∀ a ∈ g.keys, a ∉ g.adj a)

instance (g : Network) : Decidable g.WF := by
  unfold Network.WF; infer_instance

/-- Run a sequence of mutating calls, propagating the first raised error the
way an exception aborts a Python constructor. -/
def runMutations (f : Network → α → Network × Option String) (g : Network) :
    List α → Except String Network
  | [] => .ok g
  | x :: xs =>
    match f g x with
    | (g', none) => runMutations f g' xs
    | (_, some e) => .error e

/-- Whether an `Except` result is a normal return. -/
def exceptOk {ε β : Type} : Except ε β → Bool
  | .ok _ => true
  | .error _ => false

deriving instance DecidableEq for Except

/-- The network of a normal constructor return (empty placeholder network on
an error). -/
def exceptNet (e : Except String Network) : Network :=
  match e with
  | .ok g => g
  | .error _ => emptyNetwork true false

/-- `RandomNetwork.__init__` lines 37: `int((n_nodes * (n_nodes - 1)) / 2) if
n_nodes else 0`. -/
def max_undirected_edges (n_nodes : Int) : Int :=
  if n_nodes ≠ 0 then n_nodes * (n_nodes - 1) / 2 else 0

/-- Parameter validation of `RandomNetwork.__init__` (lines 30-41): rejects a
negative node count, a negative edge count, and an edge count above the
undirected maximum, in that order. -/
def randomNetworkParamError (n_nodes n_edges : Int) : Option String :=
  if n_nodes < 0 then some "The number of nodes should not be negative." else
  if n_edges < 0 then some "The number of edges should not be negative." else
  if n_edges > max_undirected_edges n_nodes then
    some "The number of edges is higher than is possible." else none

/-- The pairs `(i, j)` visited by the complete-graph double loop of
`RandomNetwork.__init__`: `i` in `range(n)`, `j` in `range(i+1, n)`. -/
def allPairs (n : Nat) : List (Nat × Nat) :=
  (List.range n).flatMap (fun i => (List.range' (i + 1) (n - (i + 1))).map (fun j => (i, j)))

/-- `RandomNetwork.__init__` on the deterministic branch `n_edges ==
max_undirected_edges` (the only branch the claims exercise): validation has
passed, the base network is undirected without self-edges, `n` nodes
`0..n-1` are added, and if the target edge count is nonzero every pair of the
double loop is connected. -/
def randomNetworkMaxEdges (n : Nat) : Except String Network :=
  if n = 0 then .ok (emptyNetwork true false)
  else
    match runMutations (fun g i => g.add_node (Ident.int i)) (emptyNetwork true false)
        (List.range n) with
    | .error e => .error e
    | .ok g1 =>
      if n * (n - 1) / 2 = 0 then .ok g1
      else runMutations (fun g p => g.add_edge (Ident.int p.1) (Ident.int p.2)) g1
        (allPairs n)

/-- `ScaleFreeNetwork.compute_probabilities`: over the nodes other than the
new node, a uniform distribution when the degree sum is zero, otherwise
degree divided by the degree sum (numbers modelled exactly as rationals). -/
def compute_probabilities (g : Network) (newId : Ident) : List (Ident × ℚ) :=
  let others := g.keys.filter (fun k => decide (k ≠ newId))
  let degree_sum : ℚ := (others.map (fun k => (g.degree k : ℚ))).sum
  if degree_sum = 0 then others.map (fun k => (k, 1 / (g.size : ℚ)))
  else others.map (fun k => (k, (g.degree k : ℚ) / degree_sum))

/-- The `while connected_count < m_edges` loop of `ScaleFreeNetwork.__init__`:
`choice` stands for `random.choices` over the candidate distribution, `fuel`
bounds the number of loop iterations (Python iterates unboundedly; exhausted
fuel marks the divergence), and the third argument counts the edges still to
add. A raise inside the loop is propagated. -/
def attachLoop (choice : List (Ident × ℚ) → Ident) (newId : Ident)
    (cands : List (Ident × ℚ)) : Network → Nat → Nat → Except String Network
  | g, fuel, need =>
    if need = 0 then .ok g
    else
      match fuel with
      | 0 => .error "attach loop ran out of fuel"
      | fuel' + 1 =>
        let c := choice cands
        if c ≠ newId ∧ g.edge_existsB newId c = false then
          match g.add_edge newId c with
          | (g', none) => attachLoop choice newId cands g' fuel' (need - 1)
          | (_, some e) => .error e
        else attachLoop choice newId cands g fuel' need

/-- One iteration of the growth loop of `ScaleFreeNetwork.__init__`: add the
node `n_nodes + i`, compute the attachment distribution once, and attach
`i + 1` edges when `i < n_edges_per_iteration`, else `n_edges_per_iteration`
edges. -/
def growthStep (choice : List (Ident × ℚ) → Ident) (m fuel n : Nat) (g : Network)
    (i : Nat) : Except String Network :=
  match g.add_node (Ident.int (i + n : Nat)) with
  | (_, some e) => .error e
  | (g1, none) =>
    let cands := compute_probabilities g1 (Ident.int (i + n : Nat))
    let m_edges := if i < m then i + 1 else m
    attachLoop choice (Ident.int (i + n : Nat)) cands g1 fuel m_edges

/-- `ScaleFreeNetwork.__init__` with non-negative parameters: seed phase adds
nodes `0..n-1`, growth phase runs `growthStep` for `i` in `range(n)`. -/
def scaleFreeNetwork (choice : List (Ident × ℚ) → Ident) (fuel n m : Nat) :
    Except String Network :=
  match runMutations (fun g i => g.add_node (Ident.int i)) (emptyNetwork true false)
      (List.range n) with
  | .error e => .error e
  | .ok g1 => (List.range n).foldlM (fun g i => growthStep choice m fuel n g i) g1

/-- A concrete selection rule for the witness: always pick the first
candidate. -/
def headChoice (l : List (Ident × ℚ)) : Ident :=
  (l.headD (Ident.int 0, 0)).1

/-- Normalization constant of `scale_free_distribution` (tools.py line 71):
`sum(k * hk for k, hk in enumerate(histogram, start=1))` for the unnormalized
power-law histogram over degrees `1..max_degree`. -/
noncomputable def sfdNormConst (max_degree : Int) (gamma : ℝ) : ℝ :=
  ((List.range max_degree.toNat).map
    (fun i => ((i + 1 : ℕ) : ℝ) * ((i + 1 : ℕ) : ℝ) ^ (-gamma))).sum

/-- `scale_free_distribution` (tools.py): raise on a negative maximum degree,
build `k ** (-gamma)` for `k` in `range(1, max_degree + 1)`, divide by the
normalization constant, and prepend the degree-0 bucket `0.0` (floats
modelled as reals). -/
noncomputable def scale_free_distribution (max_degree : Int) (gamma : ℝ) :
    Except String (List ℝ) :=
  if max_degree < 0 then .error "Maximum degree should be non-negative." else
  .ok (0 :: (List.range max_degree.toNat).map
    (fun i => ((i + 1 : ℕ) : ℝ) ^ (-gamma) / sfdNormConst max_degree gamma))

/-- The list of a normal `scale_free_distribution` return (empty list on an
error). -/
noncomputable def sfdList (max_degree : Int) (gamma : ℝ) : List ℝ :=
  match scale_free_distribution max_degree gamma with
  | .ok l => l
  | .error _ => []

/-- The loop of `cumulative` (tools.py) with the running sum as accumulator. -/
def cumulativeAux (s : ℚ) : List ℚ → List ℚ
  | [] => []
  | v :: rest => (s + v) :: cumulativeAux (s + v) rest

/-- `cumulative` (tools.py): running sums of the distribution (numbers
modelled exactly as rationals). -/
def cumulative (dist : List ℚ) : List ℚ := cumulativeAux 0 dist

/-- Python's `max` over a non-empty collection (the guards in `KS_dist` keep
the collection non-empty; the empty case never arises there). -/
def listMax : List ℚ → ℚ
  | [] => 0
  | x :: xs => xs.foldl max x

/-- `KS_dist` (tools.py): raise if either histogram is empty, otherwise the
maximum absolute difference of the two cumulative distributions over the
overlapping index range. -/
def KS_dist (histogram_a histogram_b : List ℚ) : Except String ℚ :=
  if histogram_a = [] ∨ histogram_b = [] then .error "Histograms cannot be empty." else
  let cumulative_a := cumulative histogram_a
  let cumulative_b := cumulative histogram_b
  .ok (listMax ((List.range (min cumulative_a.length cumulative_b.length)).map
    (fun i => |cumulative_a.getD i 0 - cumulative_b.getD i 0|)))

/-- Statement-side rendering of the claim's words for `KS_dist`: the maximum
over the overlapping index range of the absolute difference of the running
sums, each running sum at index `i` taken as the sum of the first `i + 1`
entries. -/
def ksDistanceSpec (a b : List ℚ) : ℚ :=
  listMax ((List.range (min a.length b.length)).map
    (fun i => |(a.take (i + 1)).sum - (b.take (i + 1)).sum|))

/-- The network after the seed phase of `ScaleFreeNetwork(1, 1)`: one node 0,
no edges. -/
def sfN0 : Network :=
  ⟨[Ident.int 0], fun x => if x = Ident.int 0 then [] else [], true, false⟩

/-- `sfN0` after the growth step adds node 1 (before its edge). -/
def sfN1 : Network :=
  ⟨[Ident.int 0, Ident.int 1], fun x => if x = Ident.int 1 then [] else sfN0.adj x,
    true, false⟩

/-- `sfN1` after the growth step attaches node 1 to node 0. -/
def sfN2 : Network :=
  (sfN1.updateAdj (Ident.int 1) (Ident.int 0 :: sfN1.adj (Ident.int 1))).updateAdj
    (Ident.int 0)
    (Ident.int 1 ::
      (sfN1.updateAdj (Ident.int 1) (Ident.int 0 :: sfN1.adj (Ident.int 1))).adj
        (Ident.int 0))

/-- A one-node undirected network that allows self-edges, before any edge is
added. -/
def gSelfU : Network := ⟨[Ident.int 0], fun _ => [], true, true⟩

/-- The directed counterpart of `gSelfU`. -/
def gSelfD : Network := ⟨[Ident.int 0], fun _ => [], false, true⟩

/-- A two-node undirected edge-free network without self-edges, for
witnesses. -/
def gPairW : Network := ⟨[Ident.int 0, Ident.int 1], fun _ => [], true, false⟩

/-- C1: in an undirected self-edge-allowing network, adding the self-edge
(0,0) succeeds but `number_edges` stays 0 (the self-edge contributes 1 to the
degree sum, which integer halving rounds away), while in the directed
counterpart the same insertion yields `number_edges = 1`. This contradicts
`number_edges`'s own docstring ("A <=> A ... counts as a single edge in both
directed and undirected networks") and the claim. -/
theorem c1_self_edge_count_bug :
    (gSelfU.add_edge (Ident.int 0) (Ident.int 0)).2 = none ∧
    (gSelfU.add_edge (Ident.int 0) (Ident.int 0)).1.number_edges = 0 ∧
    gSelfU.number_edges = 0 ∧
    (gSelfD.add_edge (Ident.int 0) (Ident.int 0)).2 = none ∧
    (gSelfD.add_edge (Ident.int 0) (Ident.int 0)).1.number_edges = 1 ∧
    gSelfD.number_edges = 0 := by
  refine ⟨rfl, ?_, rfl, rfl, ?_, rfl⟩ <;> decide

theorem updateAdj_adj (g : Network) (a : Ident) (l : List Ident) (x : Ident) :
    (g.updateAdj a l).adj x = if x = a then l else g.adj x := rfl

theorem updateAdj_keys (g : Network) (a : Ident) (l : List Ident) :
    (g.updateAdj a l).keys = g.keys := rfl

theorem updateAdj_undirected (g : Network) (a : Ident) (l : List Ident) :
    (g.updateAdj a l).undirected = g.undirected := rfl

theorem updateAdj_allow (g : Network) (a : Ident) (l : List Ident) :
    (g.updateAdj a l).allow_self_edges = g.allow_self_edges := rfl

theorem add_node_state_of_err (g : Network) (i : Ident) (h : (g.add_node i).2 ≠ none) :
    (g.add_node i).1 = g := by
  by_cases hm : i ∈ g.keys
  · simp [Network.add_node, hm]
  · simp [Network.add_node, hm] at h

theorem add_node_wf (g : Network) (i : Ident) (h : g.WF)
    (hok : (g.add_node i).2 = none) : (g.add_node i).1.WF := by
  obtain ⟨hnd, hadjnd, hclo, hsym, hself⟩ := h
  by_cases hm : i ∈ g.keys
  · simp [Network.add_node, hm] at hok
  · simp only [Network.add_node, if_neg hm]
    refine ⟨?_, ?_, ?_, ?_, ?_⟩
    · simp [List.nodup_append, hnd, List.disjoint_singleton, hm]
    · intro a ha
      by_cases hai : a = i
      · simp [hai]
      · rcases List.mem_append.mp ha with ha' | ha'
        · simpa [hai] using hadjnd a ha'
        · simp at ha'; exact absurd ha' hai
    · intro a ha b hb
      by_cases hai : a = i
      · simp [hai] at hb
      · simp only [if_neg hai] at hb
        rcases List.mem_append.mp ha with ha' | ha'
        · exact List.mem_append.mpr (Or.inl (hclo a ha' b hb))
        · simp at ha'; exact absurd ha' hai
    · intro hu a ha b hb hab
      by_cases hai : a = i
      · subst hai
        have hb' : b ∈ g.keys := by
          rcases List.mem_append.mp hb with h' | h'
          · exact h'
          · simp at h'; exact absurd h'.symm hab
        have : ¬ a ∈ g.adj b := fun hmem => hm (hclo b hb' a hmem)
        simp [if_neg (Ne.symm hab), this]
      · by_cases hbi : b = i
        · subst hbi
          have ha' : a ∈ g.keys := by
            rcases List.mem_append.mp ha with h' | h'
            · exact h'
            · simp at h'; exact absurd h' hai
          have : ¬ b ∈ g.adj a := fun hmem => hm (hclo a ha' b hmem)
          simp [if_neg hai, this]
        · have ha' : a ∈ g.keys := by
            rcases List.mem_append.mp ha with h' | h'
            · exact h'
            · simp at h'; exact absurd h' hai
          have hb' : b ∈ g.keys := by
            rcases List.mem_append.mp hb with h' | h'
            · exact h'
            · simp at h'; exact absurd h' hbi
          simp only [if_neg hai, if_neg hbi]
          exact hsym hu a ha' b hb' hab
    · intro hs a ha
      by_cases hai : a = i
      · simp [hai]
      · simp only [if_neg hai]
        rcases List.mem_append.mp ha with ha' | ha'
        · exact hself hs a ha'
        · simp at ha'; exact absurd ha' hai

theorem add_edge_state_of_err (g : Network) (a b : Ident) (h : g.WF)
    (he : (g.add_edge a b).2 ≠ none) : (g.add_edge a b).1 = g := by
  obtain ⟨hnd, hadjnd, hclo, hsym, hself⟩ := h
  by_cases h1 : a ∈ g.keys
  case neg => simp [Network.add_edge, h1]
  by_cases h2 : b ∈ g.keys
  case neg => simp [Network.add_edge, h1, h2]
  by_cases h3 : a = b ∧ g.allow_self_edges = false
  case pos => simp [Network.add_edge, h1, h2, h3]
  by_cases h4 : b ∈ g.adj a
  case pos => simp [Network.add_edge, h1, h2, h3, h4]
  by_cases h5 : g.undirected = true ∧ a ≠ b
  · have h6 : a ∉ (g.updateAdj a (b :: g.adj a)).adj b := by
      rw [updateAdj_adj, if_neg (Ne.symm h5.2)]
      intro hmem
      exact h4 ((hsym h5.1 a h1 b h2 h5.2).mpr hmem)
    simp [Network.add_edge, h1, h2, h3, h4, h5, h6] at he
  · simp [Network.add_edge, h1, h2, h3, h4, h5] at he

theorem add_edge_wf (g : Network) (a b : Ident) (h : g.WF)
    (hok : (g.add_edge a b).2 = none) : (g.add_edge a b).1.WF := by
  obtain ⟨hnd, hadjnd, hclo, hsym, hself⟩ := h
  by_cases h1 : a ∈ g.keys
  case neg => simp [Network.add_edge, h1] at hok
  by_cases h2 : b ∈ g.keys
  case neg => simp [Network.add_edge, h1, h2] at hok
  by_cases h3 : a = b ∧ g.allow_self_edges = false
  case pos => simp [Network.add_edge, h1, h2, h3] at hok
  by_cases h4 : b ∈ g.adj a
  case pos => simp [Network.add_edge, h1, h2, h3, h4] at hok
  by_cases h5 : g.undirected = true ∧ a ≠ b
  · -- two-sided insertion
    have hab : a ≠ b := h5.2
    have h6 : a ∉ g.adj b := fun hmem => h4 ((hsym h5.1 a h1 b h2 hab).mpr hmem)
    have h6' : ¬ a ∈ (g.updateAdj a (b :: g.adj a)).adj b := by
      rw [updateAdj_adj, if_neg (Ne.symm hab)]; exact h6
    have hres : (g.add_edge a b).1
        = (g.updateAdj a (b :: g.adj a)).updateAdj b (a :: g.adj b) := by
      simp [Network.add_edge, h1, h2, h3, h4, h5, h6, h6', updateAdj_adj, Ne.symm hab]
    rw [hres]
    have hmem : ∀ x y : Ident,
        (y ∈ ((g.updateAdj a (b :: g.adj a)).updateAdj b (a :: g.adj b)).adj x) ↔
          ((x = b ∧ y = a) ∨ (x = a ∧ y = b) ∨ y ∈ g.adj x) := by
      intro x y
      by_cases hxb : x = b
      · simp [updateAdj_adj, hxb, Ne.symm hab]
      · by_cases hxa : x = a
        · simp [updateAdj_adj, hxa, hab, hxb]
        · simp [updateAdj_adj, hxa, hxb]
    refine ⟨hnd, ?_, ?_, ?_, ?_⟩
    · intro x hx
      by_cases hxb : x = b
      · rw [hxb]
        simp [updateAdj_adj, List.nodup_cons, h6, hadjnd b h2]
      · by_cases hxa : x = a
        · rw [hxa]
          simp [updateAdj_adj, hab, List.nodup_cons, h4, hadjnd a h1]
        · simp [updateAdj_adj, hxa, hxb, hadjnd x hx]
    · intro x hx y hy
      rcases (hmem x y).mp hy with ⟨_, rfl⟩ | ⟨_, rfl⟩ | hy'
      · exact h1
      · exact h2
      · exact hclo x hx y hy'
    · intro hu x hx y hy hxy
      have h7 := hsym hu x hx y hy hxy
      rw [hmem, hmem, h7]
      tauto
    · intro hs x hx
      rw [hmem]
      rintro (⟨rfl, rfl⟩ | ⟨rfl, rfl⟩ | hm)
      · exact hab rfl
      · exact hab rfl
      · exact hself hs x hx hm
  · -- one-sided insertion (directed network, or an allowed self-edge)
    have hres : (g.add_edge a b).1 = g.updateAdj a (b :: g.adj a) := by
      simp [Network.add_edge, h1, h2, h3, h4, h5]
    rw [hres]
    have hmem1 : ∀ x y : Ident,
        (y ∈ (g.updateAdj a (b :: g.adj a)).adj x) ↔ ((x = a ∧ y = b) ∨ y ∈ g.adj x) := by
      intro x y
      by_cases hxa : x = a
      · simp [updateAdj_adj, hxa]
      · simp [updateAdj_adj, hxa]
    refine ⟨hnd, ?_, ?_, ?_, ?_⟩
    · intro x hx
      by_cases hxa : x = a
      · rw [hxa]
        simp [updateAdj_adj, List.nodup_cons, h4, hadjnd a h1]
      · simp [updateAdj_adj, hxa, hadjnd x hx]
    · intro x hx y hy
      rcases (hmem1 x y).mp hy with ⟨_, rfl⟩ | hy'
      · exact h2
      · exact hclo x hx y hy'
    · intro hu x hx y hy hxy
      have hab' : a = b := by
        by_contra hne
        exact h5 ⟨hu, hne⟩
      have h7 := hsym hu x hx y hy hxy
      rw [hmem1, hmem1, h7]
      constructor
      · rintro (⟨rfl, rfl⟩ | hm)
        · exact absurd hab' hxy
        · exact Or.inr hm
      · rintro (⟨rfl, rfl⟩ | hm)
        · exact absurd hab'.symm hxy
        · exact Or.inr hm
    · intro hs x hx
      have hab2 : a ≠ b := by
        intro hab'
        exact h3 ⟨hab', hs⟩
      rw [hmem1]
      rintro (⟨rfl, rfl⟩ | hm)
      · exact hab2 rfl
      · exact hself hs x hx hm

theorem remove_edge_state_of_err (g : Network) (a b : Ident) (h : g.WF)
    (he : (g.remove_edge a b).2 ≠ none) : (g.remove_edge a b).1 = g := by
  obtain ⟨hnd, hadjnd, hclo, hsym, hself⟩ := h
  by_cases h1 : a ∈ g.keys
  case neg => simp [Network.remove_edge, h1]
  by_cases h2 : b ∈ g.keys
  case neg => simp [Network.remove_edge, h1, h2]
  by_cases h3 : b ∈ g.adj a
  case neg => simp [Network.remove_edge, h1, h2, h3]
  by_cases h5 : g.undirected = true ∧ a ≠ b
  · have h6 : a ∈ g.adj b := (hsym h5.1 a h1 b h2 h5.2).mp h3
    have h6' : a ∈ (g.updateAdj a ((g.adj a).erase b)).adj b := by
      rw [updateAdj_adj, if_neg (Ne.symm h5.2)]; exact h6
    simp [Network.remove_edge, h1, h2, h3, h5, h6, h6'] at he
  · simp [Network.remove_edge, h1, h2, h3, h5] at he

theorem remove_edge_wf (g : Network) (a b : Ident) (h : g.WF)
    (hok : (g.remove_edge a b).2 = none) : (g.remove_edge a b).1.WF := by
  obtain ⟨hnd, hadjnd, hclo, hsym, hself⟩ := h
  by_cases h1 : a ∈ g.keys
  case neg => simp [Network.remove_edge, h1] at hok
  by_cases h2 : b ∈ g.keys
  case neg => simp [Network.remove_edge, h1, h2] at hok
  by_cases h3 : b ∈ g.adj a
  case neg => simp [Network.remove_edge, h1, h2, h3] at hok
  by_cases h5 : g.undirected = true ∧ a ≠ b
  · -- two-sided removal
    have hab : a ≠ b := h5.2
    have h6 : a ∈ g.adj b := (hsym h5.1 a h1 b h2 hab).mp h3
    have h6' : a ∈ (g.updateAdj a ((g.adj a).erase b)).adj b := by
      rw [updateAdj_adj, if_neg (Ne.symm hab)]; exact h6
    have hres : (g.remove_edge a b).1
        = (g.updateAdj a ((g.adj a).erase b)).updateAdj b ((g.adj b).erase a) := by
      simp [Network.remove_edge, h1, h2, h3, h5, h6, h6', updateAdj_adj, Ne.symm hab]
    rw [hres]
    have hmem2 : ∀ x y : Ident, x ∈ g.keys →
        ((y ∈ ((g.updateAdj a ((g.adj a).erase b)).updateAdj b ((g.adj b).erase a)).adj x) ↔
          (y ∈ g.adj x ∧ ¬(x = a ∧ y = b) ∧ ¬(x = b ∧ y = a))) := by
      intro x y hx
      by_cases hxb : x = b
      · rw [hxb]
        simp [updateAdj_adj, Ne.symm hab, (hadjnd b h2).mem_erase_iff] <;> tauto
      · by_cases hxa : x = a
        · rw [hxa]
          simp [updateAdj_adj, hab, (hadjnd a h1).mem_erase_iff] <;> tauto
        · simp [updateAdj_adj, hxa, hxb] <;> tauto
    refine ⟨hnd, ?_, ?_, ?_, ?_⟩
    · intro x hx
      by_cases hxb : x = b
      · rw [hxb]
        simp [updateAdj_adj, List.Nodup.erase _ (hadjnd b h2)]
      · by_cases hxa : x = a
        · rw [hxa]
          simp [updateAdj_adj, hab, List.Nodup.erase _ (hadjnd a h1)]
        · simp [updateAdj_adj, hxa, hxb, hadjnd x hx]
    · intro x hx y hy
      exact hclo x hx y ((hmem2 x y hx).mp hy).1
    · intro hu x hx y hy hxy
      have h7 := hsym hu x hx y hy hxy
      rw [hmem2 x y hx, hmem2 y x hy, h7]
      tauto
    · intro hs x hx
      rw [hmem2 x x hx]
      rintro ⟨hm, _, _⟩
      exact hself hs x hx hm
  · -- one-sided removal (directed network, or a self-edge)
    have hres : (g.remove_edge a b).1 = g.updateAdj a ((g.adj a).erase b) := by
      simp [Network.remove_edge, h1, h2, h3, h5]
    rw [hres]
    have hmem1 : ∀ x y : Ident, x ∈ g.keys →
        ((y ∈ (g.updateAdj a ((g.adj a).erase b)).adj x) ↔
          (y ∈ g.adj x ∧ ¬(x = a ∧ y = b))) := by
      intro x y hx
      by_cases hxa : x = a
      · rw [hxa]
        simp [updateAdj_adj, (hadjnd a h1).mem_erase_iff] <;> tauto
      · simp [updateAdj_adj, hxa] <;> tauto
    refine ⟨hnd, ?_, ?_, ?_, ?_⟩
    · intro x hx
      by_cases hxa : x = a
      · rw [hxa]
        simp [updateAdj_adj, List.Nodup.erase _ (hadjnd a h1)]
      · simp [updateAdj_adj, hxa, hadjnd x hx]
    · intro x hx y hy
      exact hclo x hx y ((hmem1 x y hx).mp hy).1
    · intro hu x hx y hy hxy
      have hab2 : a = b := by
        by_contra hne
        exact h5 ⟨hu, hne⟩
      subst hab2
      have h7 := hsym hu x hx y hy hxy
      rw [hmem1 x y hx, hmem1 y x hy, h7]
      tauto
    · intro hs x hx
      rw [hmem1 x x hx]
      rintro ⟨hm, _⟩
      exact hself hs x hx hm

theorem sum_map_succ_at (ks : List Ident) (hk : ks.Nodup) (f fplus : Ident → Nat)
    (a : Ident) (ha : a ∈ ks) (hoth : ∀ x ∈ ks, x ≠ a → fplus x = f x)
    (hat : fplus a = f a + 1) : (ks.map fplus).sum = (ks.map f).sum + 1 := by
  induction ks with
  | nil => cases ha
  | cons y ys ih =>
    obtain ⟨hy, hys⟩ := List.nodup_cons.mp hk
    rcases List.mem_cons.mp ha with rfl | ha'
    · simp only [List.map_cons, List.sum_cons]
      have hrest : ys.map fplus = ys.map f := by
        apply List.map_congr_left
        intro x hx
        exact hoth x (List.mem_cons_of_mem _ hx) (fun hxa => hy (hxa ▸ hx))
      rw [hrest, hat]
      omega
    · have hya : y ≠ a := fun hh => hy (hh ▸ ha')
      simp only [List.map_cons, List.sum_cons]
      rw [hoth y (List.mem_cons_self _ _) hya,
        ih hys ha' (fun x hx hxa => hoth x (List.mem_cons_of_mem _ hx) hxa)]
      omega

theorem add_edge_ok_undirected (g : Network) (a b : Ident) (hu : g.undirected = true)
    (ha : a ∈ g.keys) (hb : b ∈ g.keys) (hab : a ≠ b) (h4 : b ∉ g.adj a)
    (h6 : a ∉ g.adj b) :
    g.add_edge a b = ((g.updateAdj a (b :: g.adj a)).updateAdj b (a :: g.adj b), none) := by
  have h6' : ¬ a ∈ (g.updateAdj a (b :: g.adj a)).adj b := by
    rw [updateAdj_adj, if_neg (Ne.symm hab)]; exact h6
  have h3 : ¬(a = b ∧ g.allow_self_edges = false) := fun hc => hab hc.1
  simp [Network.add_edge, ha, hb, h3, h4, h6, h6', hu, hab, updateAdj_adj, Ne.symm hab]

theorem add_edge_ok_degreeSum (g : Network) (a b : Ident) (hnd : g.keys.Nodup)
    (hu : g.undirected = true) (ha : a ∈ g.keys) (hb : b ∈ g.keys) (hab : a ≠ b)
    (h4 : b ∉ g.adj a) (h6 : a ∉ g.adj b) :
    (g.add_edge a b).1.degreeSum = g.degreeSum + 2 := by
  rw [add_edge_ok_undirected g a b hu ha hb hab h4 h6]
  have step1 : (g.keys.map (fun i => ((g.updateAdj a (b :: g.adj a)).adj i).length)).sum
      = (g.keys.map (fun i => (g.adj i).length)).sum + 1 := by
    apply sum_map_succ_at g.keys hnd _ _ a ha
    · intro x _ hxa
      simp [updateAdj_adj, hxa]
    · simp [updateAdj_adj]
  have step2 : (g.keys.map
        (fun i => (((g.updateAdj a (b :: g.adj a)).updateAdj b (a :: g.adj b)).adj i).length)).sum
      = (g.keys.map (fun i => ((g.updateAdj a (b :: g.adj a)).adj i).length)).sum + 1 := by
    apply sum_map_succ_at g.keys hnd _ _ b hb
    · intro x _ hxb
      simp [updateAdj_adj, hxb]
    · simp [updateAdj_adj, Ne.symm hab]
  show (g.keys.map
      (fun i => (((g.updateAdj a (b :: g.adj a)).updateAdj b (a :: g.adj b)).adj i).length)).sum
    = g.degreeSum + 2
  rw [step2, step1]
  rfl

theorem add_edge_ok_edge_exists (g : Network) (a b : Ident) (hu : g.undirected = true)
    (ha : a ∈ g.keys) (hb : b ∈ g.keys) (hab : a ≠ b) (h4 : b ∉ g.adj a)
    (h6 : a ∉ g.adj b) :
    (g.add_edge a b).1.edge_exists a b = .ok true ∧
    (g.add_edge a b).1.edge_exists b a = .ok true := by
  rw [add_edge_ok_undirected g a b hu ha hb hab h4 h6]
  constructor <;>
    simp [Network.edge_exists, Network.edge_existsB, updateAdj_adj, updateAdj_keys,
      updateAdj_undirected, ha, hb, hu, hab, Ne.symm hab]

/-- C2: every public mutation (`add_node`, `add_edge`, `remove_edge`) on a
well-formed network either returns normally with all invariants maintained or
raises leaving the network unchanged; in particular the documented two-phase
undirected insertion/removal never commits a half-updated state from a
reachable (well-formed) network. -/
theorem public_mutations_atomic (g : Network) (h : g.WF) (i a b : Ident) :
    ((g.add_node i).2 = none → (g.add_node i).1.WF) ∧
    ((g.add_node i).2 ≠ none → (g.add_node i).1 = g) ∧
    ((g.add_edge a b).2 = none → (g.add_edge a b).1.WF) ∧
    ((g.add_edge a b).2 ≠ none → (g.add_edge a b).1 = g) ∧
    ((g.remove_edge a b).2 = none → (g.remove_edge a b).1.WF) ∧
    ((g.remove_edge a b).2 ≠ none → (g.remove_edge a b).1 = g) :=
  ⟨add_node_wf g i h, add_node_state_of_err g i, add_edge_wf g a b h,
    add_edge_state_of_err g a b h, remove_edge_wf g a b h, remove_edge_state_of_err g a b h⟩

/-- Witness for C2 at a concrete well-formed two-node network. -/
theorem public_mutations_atomic_witness :
    gPairW.WF ∧
    (((gPairW.add_node (Ident.int 2)).2 = none → (gPairW.add_node (Ident.int 2)).1.WF) ∧
     ((gPairW.add_node (Ident.int 2)).2 ≠ none → (gPairW.add_node (Ident.int 2)).1 = gPairW) ∧
     ((gPairW.add_edge (Ident.int 0) (Ident.int 1)).2 = none →
       (gPairW.add_edge (Ident.int 0) (Ident.int 1)).1.WF) ∧
     ((gPairW.add_edge (Ident.int 0) (Ident.int 1)).2 ≠ none →
       (gPairW.add_edge (Ident.int 0) (Ident.int 1)).1 = gPairW) ∧
     ((gPairW.remove_edge (Ident.int 0) (Ident.int 1)).2 = none →
       (gPairW.remove_edge (Ident.int 0) (Ident.int 1)).1.WF) ∧
     ((gPairW.remove_edge (Ident.int 0) (Ident.int 1)).2 ≠ none →
       (gPairW.remove_edge (Ident.int 0) (Ident.int 1)).1 = gPairW)) :=
  ⟨by decide, public_mutations_atomic gPairW (by decide) (Ident.int 2) (Ident.int 0) (Ident.int 1)⟩

/-- C3: adding an absent edge between two distinct existing nodes of a
well-formed undirected network succeeds, makes `edge_exists` true in both
orders, and increases `number_edges` by exactly one. -/
theorem undirected_add_edge_correct (g : Network) (a b : Ident) (h : g.WF)
    (hu : g.undirected = true) (ha : a ∈ g.keys) (hb : b ∈ g.keys) (hab : a ≠ b)
    (hne : g.edge_exists a b = .ok false) :
    (g.add_edge a b).2 = none ∧
    (g.add_edge a b).1.edge_exists a b = .ok true ∧
    (g.add_edge a b).1.edge_exists b a = .ok true ∧
    (g.add_edge a b).1.number_edges = g.number_edges + 1 := by
  obtain ⟨hnd, hadjnd, hclo, hsym, hself⟩ := h
  have hB : g.edge_existsB a b = false := by
    simpa [Network.edge_exists, ha, hb] using hne
  have h4 : b ∉ g.adj a := by
    intro hmem
    have h6 : a ∈ g.adj b := (hsym hu a ha b hb hab).mp hmem
    simp [Network.edge_existsB, hu, hmem, h6] at hB
  have h6 : a ∉ g.adj b := fun hmem => h4 ((hsym hu a ha b hb hab).mpr hmem)
  obtain ⟨he1, he2⟩ := add_edge_ok_edge_exists g a b hu ha hb hab h4 h6
  have hdeg := add_edge_ok_degreeSum g a b hnd hu ha hb hab h4 h6
  refine ⟨?_, he1, he2, ?_⟩
  · rw [add_edge_ok_undirected g a b hu ha hb hab h4 h6]
  · have hu2 : (g.add_edge a b).1.undirected = true := by
      rw [add_edge_ok_undirected g a b hu ha hb hab h4 h6]
      exact hu
    simp only [Network.number_edges, hu2, hu]
    norm_num
    rw [hdeg]
    omega

/-- Witness for C3 at a concrete network. -/
theorem undirected_add_edge_correct_witness :
    gPairW.WF ∧ gPairW.undirected = true ∧ Ident.int 0 ∈ gPairW.keys ∧
    Ident.int 1 ∈ gPairW.keys ∧ Ident.int 0 ≠ Ident.int 1 ∧
    gPairW.edge_exists (Ident.int 0) (Ident.int 1) = Except.ok false ∧
    ((gPairW.add_edge (Ident.int 0) (Ident.int 1)).2 = none ∧
     (gPairW.add_edge (Ident.int 0) (Ident.int 1)).1.edge_exists
       (Ident.int 0) (Ident.int 1) = .ok true ∧
     (gPairW.add_edge (Ident.int 0) (Ident.int 1)).1.edge_exists
       (Ident.int 1) (Ident.int 0) = .ok true ∧
     (gPairW.add_edge (Ident.int 0) (Ident.int 1)).1.number_edges
       = gPairW.number_edges + 1) :=
  ⟨by decide, rfl, by decide, by decide, by decide, rfl,
    undirected_add_edge_correct gPairW (Ident.int 0) (Ident.int 1) (by decide) rfl
      (by decide) (by decide) (by decide) rfl⟩

theorem le_foldr_max {l : List Nat} {x : Nat} (hx : x ∈ l) : x ≤ l.foldr max 0 := by
  induction l with
  | nil => cases hx
  | cons y ys ih =>
    rcases List.mem_cons.mp hx with rfl | hx'
    · exact Nat.le_max_left _ _
    · exact le_trans (ih hx') (Nat.le_max_right _ _)

theorem sum_set_getD_succ (h : List Nat) (k : Nat) (hk : k < h.length) :
    (h.set k (h.getD k 0 + 1)).sum = h.sum + 1 := by
  induction h generalizing k with
  | nil => simp at hk
  | cons x t ih =>
    cases k with
    | zero => simp [List.getD]; omega
    | succ k =>
      have hk' : k < t.length := by simpa using hk
      simp only [List.set, List.sum_cons, List.getD_cons_succ]
      rw [ih k hk']
      omega

theorem hist_foldl_spec (g : Network) (ks : List Ident) (h0 : List Nat)
    (hlen : ∀ i ∈ ks, g.degree i < h0.length) :
    (ks.foldl (fun h i => h.set (g.degree i) (h.getD (g.degree i) 0 + 1)) h0).length
      = h0.length ∧
    (ks.foldl (fun h i => h.set (g.degree i) (h.getD (g.degree i) 0 + 1)) h0).sum
      = h0.sum + ks.length := by
  induction ks generalizing h0 with
  | nil => simp
  | cons i is ih =>
    simp only [List.foldl_cons]
    have hi : g.degree i < h0.length := hlen i (List.mem_cons_self _ _)
    have hlen1 : (h0.set (g.degree i) (h0.getD (g.degree i) 0 + 1)).length = h0.length :=
      List.length_set h0 _ _
    obtain ⟨ihl, ihs⟩ := ih (h0.set (g.degree i) (h0.getD (g.degree i) 0 + 1))
      (fun j hj => by rw [hlen1]; exact hlen j (List.mem_cons_of_mem _ hj))
    refine ⟨by rw [ihl, hlen1], ?_⟩
    rw [ihs, sum_set_getD_succ h0 _ hi]
    simp
    omega

theorem degree_histogram_length (g : Network) :
    g.degree_histogram.length = g.max_degree + 1 := by
  unfold Network.degree_histogram
  rw [(hist_foldl_spec g g.keys (List.replicate (g.max_degree + 1) 0) ?_).1,
    List.length_replicate]
  intro i hi
  rw [List.length_replicate]
  have : g.degree i ≤ g.max_degree :=
    le_foldr_max (List.mem_map_of_mem (fun i => g.degree i) hi)
  omega

theorem degree_histogram_sum (g : Network) : g.degree_histogram.sum = g.size := by
  unfold Network.degree_histogram
  rw [(hist_foldl_spec g g.keys (List.replicate (g.max_degree + 1) 0) ?_).2,
    List.sum_replicate]
  · simp [Network.size]
  · intro i hi
    rw [List.length_replicate]
    have : g.degree i ≤ g.max_degree :=
      le_foldr_max (List.mem_map_of_mem (fun i => g.degree i) hi)
    omega

/-- C4: the degree histogram always has length `max_degree + 1` and its
buckets sum to the node count; in particular the empty network has
`max_degree = 0` and histogram `[0]`. -/
theorem degree_histogram_spec (g : Network) :
    g.degree_histogram.length = g.max_degree + 1 ∧
    g.degree_histogram.sum = g.size ∧
    (g.size = 0 → g.max_degree = 0 ∧ g.degree_histogram = [0]) := by
  refine ⟨degree_histogram_length g, degree_histogram_sum g, fun hs => ?_⟩
  have hkeys : g.keys = [] := List.length_eq_zero.mp hs
  constructor
  · simp [Network.max_degree, hkeys]
  · simp [Network.degree_histogram, Network.max_degree, hkeys, List.replicate]

/-- Witness for C4 on the empty network. -/
theorem degree_histogram_spec_witness :
    (emptyNetwork true false).degree_histogram.length
      = (emptyNetwork true false).max_degree + 1 ∧
    (emptyNetwork true false).degree_histogram.sum = (emptyNetwork true false).size ∧
    ((emptyNetwork true false).max_degree = 0 ∧
      (emptyNetwork true false).degree_histogram = [0]) :=
  ⟨(degree_histogram_spec (emptyNetwork true false)).1,
   (degree_histogram_spec (emptyNetwork true false)).2.1,
   (degree_histogram_spec (emptyNetwork true false)).2.2 rfl⟩

theorem sum_map_div_nat (l : List Nat) (q : ℚ) :
    (l.map (fun c : Nat => (c : ℚ) / q)).sum = (l.sum : ℚ) / q := by
  induction l with
  | nil => simp
  | cons x t ih =>
    simp only [List.map_cons, List.sum_cons, Nat.cast_add, add_div, ih]

/-- C10: the normalized degree distribution always sums to exactly 1 (in
exact arithmetic): the empty network returns `[1.0]`, and otherwise the
histogram buckets, which sum to `size()`, are each divided by `size()`. -/
theorem normalized_degree_distribution_sum_one (g : Network) :
    g.normalized_degree_distribution.sum = 1 ∧
    (g.size = 0 → g.normalized_degree_distribution = [1]) ∧
    (g.size ≠ 0 → g.normalized_degree_distribution
      = g.degree_histogram.map (fun c : Nat => (c : ℚ) / (g.size : ℚ))) := by
  refine ⟨?_, fun hs => by simp [Network.normalized_degree_distribution, hs],
    fun hs => by simp [Network.normalized_degree_distribution, hs]⟩
  by_cases hs : g.size = 0
  · simp [Network.normalized_degree_distribution, hs]
  · rw [(by simp [Network.normalized_degree_distribution, hs] :
      g.normalized_degree_distribution
        = g.degree_histogram.map (fun c : Nat => (c : ℚ) / (g.size : ℚ))),
      sum_map_div_nat, degree_histogram_sum g]
    exact div_self (Nat.cast_ne_zero.mpr hs)

/-- Witness for C10 at concrete networks. -/
theorem normalized_degree_distribution_sum_one_witness :
    gPairW.normalized_degree_distribution.sum = 1 ∧
    (emptyNetwork true false).normalized_degree_distribution = [1] :=
  ⟨(normalized_degree_distribution_sum_one gPairW).1,
   (normalized_degree_distribution_sum_one (emptyNetwork true false)).2.1 rfl⟩

theorem max_undirected_edges_nonneg (n : Int) (hn : 0 ≤ n) :
    max_undirected_edges n = n * (n - 1) / 2 := by
  unfold max_undirected_edges
  by_cases h0 : n = 0
  · simp [h0]
  · simp [h0]

/-- C5: `RandomNetwork(n, m)` parameter validation raises exactly when the
requested edge count exceeds `n(n-1)/2` (for non-negative parameters), and
always raises on a negative node or edge count; in particular `n=4, m=7`
raises because the maximum is 6. -/
theorem random_network_param_check (n m n2 m2 n3 m3 : Int) (hn : 0 ≤ n) (hm : 0 ≤ m)
    (hn2 : n2 < 0) (hm3 : m3 < 0) :
    ((randomNetworkParamError n m).isSome = true ↔ n * (n - 1) / 2 < m) ∧
    (randomNetworkParamError n2 m2).isSome = true ∧
    (randomNetworkParamError n3 m3).isSome = true ∧
    (randomNetworkParamError 4 7).isSome = true := by
  refine ⟨?_, ?_, ?_, by decide⟩
  · rw [randomNetworkParamError, if_neg (not_lt.mpr hn), if_neg (not_lt.mpr hm),
      max_undirected_edges_nonneg n hn]
    by_cases hgt : n * (n - 1) / 2 < m
    · simp [hgt]
    · simp [hgt]
  · simp [randomNetworkParamError, hn2]
  · by_cases hn3 : n3 < 0
    · simp [randomNetworkParamError, hn3]
    · simp [randomNetworkParamError, hn3, hm3]

/-- Witness for C5 at the concrete inputs named by the spec. -/
theorem random_network_param_check_witness :
    (((randomNetworkParamError 4 7).isSome = true ↔ (4 : Int) * (4 - 1) / 2 < 7) ∧
     (randomNetworkParamError (-1) 0).isSome = true ∧
     (randomNetworkParamError 0 (-2)).isSome = true ∧
     (randomNetworkParamError 4 7).isSome = true) :=
  random_network_param_check 4 7 (-1) 0 0 (-2) (by decide) (by decide) (by decide) (by decide)

theorem cumulativeAux_length (s : ℚ) (l : List ℚ) :
    (cumulativeAux s l).length = l.length := by
  induction l generalizing s with
  | nil => rfl
  | cons v rest ih => simp [cumulativeAux, ih]

theorem cumulative_length (l : List ℚ) : (cumulative l).length = l.length :=
  cumulativeAux_length 0 l

theorem cumulativeAux_getD (s : ℚ) (l : List ℚ) (i : Nat) (hi : i < l.length) :
    (cumulativeAux s l).getD i 0 = s + (l.take (i + 1)).sum := by
  induction l generalizing s i with
  | nil => simp at hi
  | cons v rest ih =>
    cases i with
    | zero => simp [cumulativeAux]
    | succ i =>
      have hi' : i < rest.length := by simpa using hi
      simp only [cumulativeAux, List.getD_cons_succ, List.take_succ_cons, List.sum_cons]
      rw [ih (s + v) i hi']
      ring

theorem cumulative_getD (l : List ℚ) (i : Nat) (hi : i < l.length) :
    (cumulative l).getD i 0 = (l.take (i + 1)).sum := by
  rw [cumulative, cumulativeAux_getD 0 l i hi, zero_add]

theorem le_foldl_max_init (l : List ℚ) (b : ℚ) : b ≤ l.foldl max b := by
  induction l generalizing b with
  | nil => exact le_refl b
  | cons c t ih => exact le_trans (le_max_left b c) (ih (max b c))

theorem le_foldl_max_mem (l : List ℚ) : ∀ (b x : ℚ), x ∈ l → x ≤ l.foldl max b := by
  induction l with
  | nil => intro b x hx; cases hx
  | cons c t ih =>
    intro b x hx
    rcases List.mem_cons.mp hx with rfl | hx'
    · exact le_trans (le_max_right b x) (le_foldl_max_init t (max b x))
    · exact ih (max b c) x hx'

theorem le_listMax (l : List ℚ) (x : ℚ) (hx : x ∈ l) : x ≤ listMax l := by
  cases l with
  | nil => cases hx
  | cons y ys =>
    rcases List.mem_cons.mp hx with rfl | hx'
    · exact le_foldl_max_init ys x
    · exact le_foldl_max_mem ys y x hx'

theorem foldl_max_mem (l : List ℚ) (b : ℚ) : l.foldl max b ∈ b :: l := by
  induction l generalizing b with
  | nil => simp
  | cons c t ih =>
    show t.foldl max (max b c) ∈ b :: c :: t
    rcases List.mem_cons.mp (ih (max b c)) with hmem | hmem
    · rcases max_choice b c with hbc | hbc
      · rw [hmem, hbc]
        exact List.mem_cons_self _ _
      · rw [hmem, hbc]
        exact List.mem_cons_of_mem _ (List.mem_cons_self _ _)
    · exact List.mem_cons_of_mem _ (List.mem_cons_of_mem _ hmem)

theorem listMax_mem (l : List ℚ) (hl : l ≠ []) : listMax l ∈ l := by
  cases l with
  | nil => exact absurd rfl hl
  | cons y ys => exact foldl_max_mem ys y

/-- C9: `KS_dist` raises exactly on an empty input; otherwise it returns the
maximum over the overlapping index range of the absolute pointwise difference
of the two cumulative distributions (each the running sums of its input, of
equal length); `KS_dist([0,1],[0,1])` is 0. -/
theorem ks_distance_spec (a b e1 e2 : List ℚ) (i : Nat) (ha : a ≠ []) (hb : b ≠ [])
    (hi : i < min a.length b.length) :
    KS_dist a b = Except.ok (ksDistanceSpec a b) ∧
    |(a.take (i + 1)).sum - (b.take (i + 1)).sum| ≤ ksDistanceSpec a b ∧
    ksDistanceSpec a b ∈ (List.range (min a.length b.length)).map
      (fun j => |(a.take (j + 1)).sum - (b.take (j + 1)).sum|) ∧
    (cumulative a).length = a.length ∧
    (exceptOk (KS_dist e1 e2) = false ↔ (e1 = [] ∨ e2 = [])) ∧
    KS_dist [0, 1] [0, 1] = Except.ok 0 := by
  have hca := cumulative_length a
  have hcb := cumulative_length b
  have hmap : (List.range (min (cumulative a).length (cumulative b).length)).map
      (fun j => |(cumulative a).getD j 0 - (cumulative b).getD j 0|)
      = (List.range (min a.length b.length)).map
        (fun j => |(a.take (j + 1)).sum - (b.take (j + 1)).sum|) := by
    rw [hca, hcb]
    apply List.map_congr_left
    intro j hj
    have hj' := List.mem_range.mp hj
    rw [cumulative_getD a j (lt_of_lt_of_le hj' (min_le_left _ _)),
      cumulative_getD b j (lt_of_lt_of_le hj' (min_le_right _ _))]
  have hmain : KS_dist a b = Except.ok (ksDistanceSpec a b) := by
    rw [KS_dist, if_neg (by simp [ha, hb])]
    show Except.ok (listMax ((List.range (min (cumulative a).length
        (cumulative b).length)).map
      (fun j => |(cumulative a).getD j 0 - (cumulative b).getD j 0|))) = _
    rw [hmap]
    rfl
  have hnonempty : (List.range (min a.length b.length)).map
      (fun j => |(a.take (j + 1)).sum - (b.take (j + 1)).sum|) ≠ [] := by
    simp only [ne_eq, List.map_eq_nil_iff, List.range_eq_nil]
    omega
  refine ⟨hmain, ?_, ?_, hca, ?_, ?_⟩
  · apply le_listMax
    apply List.mem_map_of_mem
    exact List.mem_range.mpr hi
  · exact listMax_mem _ hnonempty
  · constructor
    · intro hfalse
      by_contra hne
      push_neg at hne
      rw [KS_dist, if_neg (by simp [hne.1, hne.2])] at hfalse
      simp [exceptOk] at hfalse
    · intro hor
      rw [KS_dist, if_pos hor]
      rfl
  · rw [show KS_dist [0, 1] [0, 1]
        = Except.ok (listMax ((List.range (min (cumulative [0, 1]).length
            (cumulative [0, 1]).length)).map
          (fun j => |(cumulative [0, 1]).getD j 0 - (cumulative [0, 1]).getD j 0|)))
      from by rw [KS_dist, if_neg (by simp)]]
    norm_num [cumulative, cumulativeAux, listMax, List.range_succ]

/-- Witness for C9 at the spec's concrete inputs. -/
theorem ks_distance_spec_witness :
    KS_dist [0, 1] [0, 1] = Except.ok (ksDistanceSpec [0, 1] [0, 1]) ∧
    |(([0, 1] : List ℚ).take 1).sum - (([0, 1] : List ℚ).take 1).sum|
      ≤ ksDistanceSpec [0, 1] [0, 1] ∧
    ksDistanceSpec [0, 1] [0, 1] ∈ (List.range (min ([0, 1] : List ℚ).length
      ([0, 1] : List ℚ).length)).map
      (fun j => |(([0, 1] : List ℚ).take (j + 1)).sum
        - (([0, 1] : List ℚ).take (j + 1)).sum|) ∧
    (cumulative [0, 1]).length = ([0, 1] : List ℚ).length ∧
    (exceptOk (KS_dist [] [1]) = false ↔ (([] : List ℚ) = [] ∨ ([1] : List ℚ) = [])) ∧
    KS_dist [0, 1] [0, 1] = Except.ok 0 :=
  ks_distance_spec [0, 1] [0, 1] [] [1] 0 (by decide) (by decide) (by decide)

theorem sfdList_eq (md : Int) (γ : ℝ) (hmd : 0 ≤ md) :
    sfdList md γ = 0 :: (List.range md.toNat).map
      (fun i => ((i + 1 : ℕ) : ℝ) ^ (-γ) / sfdNormConst md γ) := by
  rw [sfdList, scale_free_distribution, if_neg (not_lt.mpr hmd)]

theorem sfdNormConst_pos (md : Int) (γ : ℝ) (hmd : 1 ≤ md) :
    0 < sfdNormConst md γ := by
  apply List.sum_pos
  · intro x hx
    obtain ⟨i, _, rfl⟩ := List.mem_map.mp hx
    have hpos : (0 : ℝ) < ((i + 1 : ℕ) : ℝ) := by positivity
    exact mul_pos hpos (Real.rpow_pos_of_pos hpos (-γ))
  · simp only [ne_eq, List.map_eq_nil_iff, List.range_eq_nil]
    omega

/-- C8: `scale_free_distribution` fails exactly on a negative maximum degree;
for `max_degree ≥ 1` it returns `max_degree + 1` buckets whose degree-0
bucket is 0, whose bucket `k` (1 ≤ k ≤ max_degree) is `k^(-gamma)` times the
positive constant `1 / Z` (so the buckets are proportional to `k^(-gamma)`),
normalized so that the degree-weighted sum over `k = 1..max_degree` is 1. -/
theorem scale_free_distribution_spec (m1 md : Int) (γ : ℝ) (k : Nat)
    (hmd : 1 ≤ md) (hk1 : 1 ≤ k) (hk2 : (k : Int) ≤ md) :
    (exceptOk (scale_free_distribution m1 γ) = true ↔ 0 ≤ m1) ∧
    (sfdList md γ).length = md.toNat + 1 ∧
    (sfdList md γ).getD 0 0 = 0 ∧
    0 < sfdNormConst md γ ∧
    (sfdList md γ).getD k 0 = (k : ℝ) ^ (-γ) * (1 / sfdNormConst md γ) ∧
    ((List.range md.toNat).map
      (fun i => ((i + 1 : ℕ) : ℝ) * (sfdList md γ).getD (i + 1) 0)).sum = 1 := by
  have hmd0 : 0 ≤ md := le_trans zero_le_one hmd
  have hlist := sfdList_eq md γ hmd0
  have hpos := sfdNormConst_pos md γ hmd
  have hbucket : ∀ j : Nat, j < md.toNat →
      (sfdList md γ).getD (j + 1) 0 = ((j + 1 : ℕ) : ℝ) ^ (-γ) / sfdNormConst md γ := by
    intro j hj
    rw [hlist, List.getD_cons_succ]
    have hlen : j < ((List.range md.toNat).map
        (fun i => ((i + 1 : ℕ) : ℝ) ^ (-γ) / sfdNormConst md γ)).length := by
      simpa using hj
    rw [List.getD_eq_getElem _ _ hlen, List.getElem_map, List.getElem_range]
  refine ⟨?_, ?_, ?_, hpos, ?_, ?_⟩
  · by_cases hm1 : m1 < 0
    · simp [scale_free_distribution, hm1, exceptOk, not_le.mpr hm1]
    · simp [scale_free_distribution, hm1, exceptOk, not_lt.mp hm1]
  · rw [hlist]
    simp
  · rw [hlist, List.getD_cons_zero]
  · obtain ⟨j, rfl⟩ : ∃ j, k = j + 1 := ⟨k - 1, by omega⟩
    have hj : j < md.toNat := by omega
    rw [hbucket j hj, div_eq_mul_one_div]
  · have hcongr : (List.range md.toNat).map
        (fun i => ((i + 1 : ℕ) : ℝ) * (sfdList md γ).getD (i + 1) 0)
        = (List.range md.toNat).map
          (fun i => (((i + 1 : ℕ) : ℝ) * ((i + 1 : ℕ) : ℝ) ^ (-γ)) * (sfdNormConst md γ)⁻¹) := by
      apply List.map_congr_left
      intro i hi
      rw [hbucket i (List.mem_range.mp hi), div_eq_mul_inv]
      ring
    rw [hcongr, List.sum_map_mul_right]
    exact mul_inv_cancel₀ (ne_of_gt hpos)

/-- Witness for C8 at `max_degree = 2`, `gamma = 2`, bucket `k = 1`. -/
theorem scale_free_distribution_spec_witness :
    (exceptOk (scale_free_distribution (-3) 2) = true ↔ (0 : Int) ≤ -3) ∧
    (sfdList 2 2).length = (2 : Int).toNat + 1 ∧
    (sfdList 2 2).getD 0 0 = 0 ∧
    0 < sfdNormConst 2 2 ∧
    (sfdList 2 2).getD 1 0 = ((1 : Nat) : ℝ) ^ (-(2 : ℝ)) * (1 / sfdNormConst 2 2) ∧
    ((List.range (2 : Int).toNat).map
      (fun i => ((i + 1 : ℕ) : ℝ) * (sfdList 2 2).getD (i + 1) 0)).sum = 1 :=
  scale_free_distribution_spec (-3) 2 2 1 (by decide) (by decide) (by decide)

theorem ident_int_injective : Function.Injective (fun i : Nat => Ident.int i) := by
  intro x y h
  simpa using h

theorem runAddNodes_aux (l : List Nat) : ∀ (g : Network), l.Nodup →
    (∀ i ∈ l, Ident.int i ∉ g.keys) →
    ∃ g1, runMutations (fun g i => g.add_node (Ident.int i)) g l = .ok g1 ∧
      g1.keys = g.keys ++ l.map (fun i : Nat => Ident.int i) ∧
      (∀ x, g1.adj x = if x ∈ l.map (fun i : Nat => Ident.int i) then [] else g.adj x) ∧
      g1.undirected = g.undirected ∧ g1.allow_self_edges = g.allow_self_edges := by
  induction l with
  | nil =>
    intro g _ _
    exact ⟨g, rfl, by simp, fun x => by simp, rfl, rfl⟩
  | cons i rest ih =>
    intro g hnd hfresh
    obtain ⟨hi, hrest⟩ := List.nodup_cons.mp hnd
    have hstep : g.add_node (Ident.int i) =
        ({ keys := g.keys ++ [Ident.int i],
           adj := fun x => if x = Ident.int i then [] else g.adj x,
           undirected := g.undirected, allow_self_edges := g.allow_self_edges }, none) := by
      rw [Network.add_node, if_neg (hfresh i (List.mem_cons_self _ _))]
    obtain ⟨g1, hrun, hkeys, hadj, hund, hall⟩ := ih
      { keys := g.keys ++ [Ident.int i],
        adj := fun x => if x = Ident.int i then [] else g.adj x,
        undirected := g.undirected, allow_self_edges := g.allow_self_edges }
      hrest
      (by
        intro j hj
        simp only [List.mem_append, List.mem_singleton, not_or]
        refine ⟨hfresh j (List.mem_cons_of_mem _ hj), ?_⟩
        intro hji
        have hji' : j = i := by simpa using hji
        rw [← hji'] at hi
        exact hi hj)
    refine ⟨g1, ?_, ?_, ?_, hund, hall⟩
    · simp only [runMutations]
      rw [hstep]
      exact hrun
    · rw [hkeys]
      simp [List.append_assoc]
    · intro x
      rw [hadj x]
      by_cases hx : x ∈ rest.map (fun i : Nat => Ident.int i)
      · simp [hx]
      · by_cases hxi : x = Ident.int i
        · simp [hx, hxi]
        · simp [hx, hxi]

theorem runAddNodes (n : Nat) :
    ∃ g1, runMutations (fun g i => g.add_node (Ident.int i)) (emptyNetwork true false)
        (List.range n) = .ok g1 ∧
      g1.keys = (List.range n).map (fun i : Nat => Ident.int i) ∧
      (∀ x, g1.adj x = []) ∧
      g1.undirected = true ∧ g1.allow_self_edges = false := by
  obtain ⟨g1, hrun, hkeys, hadj, hund, hall⟩ := runAddNodes_aux (List.range n)
    (emptyNetwork true false) (List.nodup_range n) (by intro i _; simp [emptyNetwork])
  refine ⟨g1, hrun, by simpa [emptyNetwork] using hkeys, ?_, hund, hall⟩
  intro x
  rw [hadj x]
  by_cases hx : x ∈ (List.range n).map (fun i : Nat => Ident.int i)
  · simp [hx]
  · simp [hx, emptyNetwork]

theorem allPairs_mem (n i j : Nat) : (i, j) ∈ allPairs n ↔ (i < j ∧ j < n) := by
  constructor
  · intro h
    obtain ⟨a, ha, h2⟩ := List.mem_flatMap.mp h
    obtain ⟨b, hb, heq⟩ := List.mem_map.mp h2
    obtain ⟨h3, h4⟩ := List.mem_range'_1.mp hb
    rw [List.mem_range] at ha
    cases heq
    omega
  · rintro ⟨hij, hjn⟩
    apply List.mem_flatMap.mpr
    exact ⟨i, List.mem_range.mpr (lt_trans hij hjn),
      List.mem_map.mpr ⟨j, List.mem_range'_1.mpr ⟨by omega, by omega⟩, rfl⟩⟩

theorem allPairs_nodup (n : Nat) : (allPairs n).Nodup := by
  rw [allPairs, List.nodup_flatMap]
  constructor
  · intro i _
    apply List.Nodup.map
    · intro x y hxy
      simpa using hxy
    · exact List.nodup_range' _ _
  · apply List.Pairwise.imp ?_ (List.nodup_range n)
    intro a b hab
    intro p hp hp'
    obtain ⟨x, _, rfl⟩ := List.mem_map.mp hp
    obtain ⟨y, _, heq⟩ := List.mem_map.mp hp'
    have hba : b = a := by
      have := congrArg Prod.fst heq
      simpa using this
    exact hab hba.symm

theorem list_range_map_sum (f : Nat → Nat) (n : Nat) :
    ((List.range n).map f).sum = ∑ i ∈ Finset.range n, f i := by
  induction n with
  | zero => simp
  | succ n ih =>
    rw [List.range_succ, List.map_append, List.sum_append, Finset.sum_range_succ, ih]
    simp

theorem allPairs_length (n : Nat) : (allPairs n).length = n * (n - 1) / 2 := by
  rw [allPairs, List.length_flatMap]
  have hmap : (List.map (List.length ∘ fun i => (List.range' (i + 1) (n - (i + 1))).map
      (fun j => (i, j))) (List.range n)) = (List.range n).map (fun i => n - (i + 1)) := by
    apply List.map_congr_left
    intro i _
    simp [List.length_range']
  rw [hmap, list_range_map_sum]
  have hcongr : ∑ i ∈ Finset.range n, (n - (i + 1)) = ∑ i ∈ Finset.range n, (n - 1 - i) :=
    Finset.sum_congr rfl (fun i _ => by omega)
  rw [hcongr, Finset.sum_range_reflect (fun i => i) n, Finset.sum_range_id]

theorem double_update_mem (g : Network) (a b : Ident) (hab : a ≠ b) (x y : Ident) :
    (y ∈ ((g.updateAdj a (b :: g.adj a)).updateAdj b (a :: g.adj b)).adj x) ↔
      ((x = b ∧ y = a) ∨ (x = a ∧ y = b) ∨ y ∈ g.adj x) := by
  by_cases hxb : x = b
  · simp [updateAdj_adj, hxb, Ne.symm hab]
  · by_cases hxa : x = a
    · simp [updateAdj_adj, hxa, hab, hxb]
    · simp [updateAdj_adj, hxa, hxb]

theorem runAddEdges (ps : List (Nat × Nat)) : ∀ (g : Network),
    g.undirected = true → g.keys.Nodup →
    (∀ p ∈ ps, Ident.int p.1 ∈ g.keys ∧ Ident.int p.2 ∈ g.keys) →
    (∀ p ∈ ps, p.1 < p.2) →
    (∀ p ∈ ps, Ident.int p.2 ∉ g.adj (Ident.int p.1) ∧
      Ident.int p.1 ∉ g.adj (Ident.int p.2)) →
    ps.Nodup →
    ∃ g', runMutations (fun g p => g.add_edge (Ident.int p.1) (Ident.int p.2)) g ps
        = .ok g' ∧
      g'.keys = g.keys ∧ g'.undirected = g.undirected ∧
      g'.degreeSum = g.degreeSum + 2 * ps.length ∧
      (∀ x y, y ∈ g.adj x → y ∈ g'.adj x) ∧
      (∀ p ∈ ps, Ident.int p.2 ∈ g'.adj (Ident.int p.1) ∧
        Ident.int p.1 ∈ g'.adj (Ident.int p.2)) := by
  induction ps with
  | nil =>
    intro g _ _ _ _ _ _
    exact ⟨g, rfl, rfl, rfl, by simp, fun x y h => h, by simp⟩
  | cons p rest ih =>
    intro g hu hnd hmem hlt habs hps
    obtain ⟨hpr, hrest⟩ := List.nodup_cons.mp hps
    have hpm := hmem p (List.mem_cons_self _ _)
    have hpl := hlt p (List.mem_cons_self _ _)
    have hpa := habs p (List.mem_cons_self _ _)
    have hne : Ident.int p.1 ≠ Ident.int p.2 := by
      intro h
      have : (p.1 : Int) = (p.2 : Int) := by simpa using h
      omega
    have hstep := add_edge_ok_undirected g (Ident.int p.1) (Ident.int p.2)
      hu hpm.1 hpm.2 hne hpa.1 hpa.2
    have hdeg2 := add_edge_ok_degreeSum g (Ident.int p.1) (Ident.int p.2)
      hnd hu hpm.1 hpm.2 hne hpa.1 hpa.2
    rw [hstep] at hdeg2
    set g2 := (g.updateAdj (Ident.int p.1) (Ident.int p.2 :: g.adj (Ident.int p.1))).updateAdj
      (Ident.int p.2) (Ident.int p.1 :: g.adj (Ident.int p.2)) with hg2
    have hg2mem : ∀ x y : Ident, (y ∈ g2.adj x) ↔
        ((x = Ident.int p.2 ∧ y = Ident.int p.1) ∨
         (x = Ident.int p.1 ∧ y = Ident.int p.2) ∨ y ∈ g.adj x) :=
      double_update_mem g (Ident.int p.1) (Ident.int p.2) hne
    obtain ⟨g', hrun, hkeys, hund, hdeg, hmono, hpairs⟩ := ih g2
      (by rw [hg2]; exact hu)
      (by rw [hg2]; exact hnd)
      (fun q hq => by rw [hg2]; exact hmem q (List.mem_cons_of_mem _ hq))
      (fun q hq => hlt q (List.mem_cons_of_mem _ hq))
      (by
        intro q hq
        have hqm := hmem q (List.mem_cons_of_mem _ hq)
        have hql := hlt q (List.mem_cons_of_mem _ hq)
        have hqa := habs q (List.mem_cons_of_mem _ hq)
        have hqp : q ≠ p := fun h => hpr (h ▸ hq)
        constructor
        · rw [hg2mem]
          rintro (⟨h1, h2⟩ | ⟨h1, h2⟩ | h3)
          · have e1 : q.1 = p.2 := by
              have : (q.1 : Int) = (p.2 : Int) := by simpa using h1
              omega
            have e2 : q.2 = p.1 := by
              have : (q.2 : Int) = (p.1 : Int) := by simpa using h2
              omega
            omega
          · have e1 : q.1 = p.1 := by
              have : (q.1 : Int) = (p.1 : Int) := by simpa using h1
              omega
            have e2 : q.2 = p.2 := by
              have : (q.2 : Int) = (p.2 : Int) := by simpa using h2
              omega
            exact hqp (Prod.ext e1 e2)
          · exact hqa.1 h3
        · rw [hg2mem]
          rintro (⟨h1, h2⟩ | ⟨h1, h2⟩ | h3)
          · have e1 : q.2 = p.2 := by
              have : (q.2 : Int) = (p.2 : Int) := by simpa using h1
              omega
            have e2 : q.1 = p.1 := by
              have : (q.1 : Int) = (p.1 : Int) := by simpa using h2
              omega
            exact hqp (Prod.ext e2 e1)
          · have e1 : q.2 = p.1 := by
              have : (q.2 : Int) = (p.1 : Int) := by simpa using h1
              omega
            have e2 : q.1 = p.2 := by
              have : (q.1 : Int) = (p.2 : Int) := by simpa using h2
              omega
            omega
          · exact hqa.2 h3)
      hrest
    refine ⟨g', ?_, ?_, ?_, ?_, ?_, ?_⟩
    · simp only [runMutations]
      rw [hstep]
      exact hrun
    · rw [hkeys, hg2]
      rfl
    · rw [hund, hg2]
      rfl
    · rw [hdeg, hdeg2]
      simp [List.length_cons]
      ring
    · intro x y hxy
      apply hmono
      rw [hg2mem]
      exact Or.inr (Or.inr hxy)
    · intro q hq
      rcases List.mem_cons.mp hq with rfl | hq'
      · constructor
        · apply hmono
          rw [hg2mem]
          exact Or.inr (Or.inl ⟨rfl, rfl⟩)
        · apply hmono
          rw [hg2mem]
          exact Or.inl ⟨rfl, rfl⟩
      · exact hpairs q hq'

/-- C6: with the edge target equal to the maximum `n(n-1)/2`, the
deterministic branch of `RandomNetwork.__init__` succeeds and produces the
complete graph on nodes `0..n-1`: every pair of distinct nodes is connected
and `number_edges` equals `n(n-1)/2`. -/
theorem randomNetworkMax_complete (n i j : Nat) (hi : i < n) (hj : j < n)
    (hij : i ≠ j) :
    exceptOk (randomNetworkMaxEdges n) = true ∧
    (exceptNet (randomNetworkMaxEdges n)).size = n ∧
    (exceptNet (randomNetworkMaxEdges n)).number_edges = n * (n - 1) / 2 ∧
    (exceptNet (randomNetworkMaxEdges n)).edge_exists (Ident.int i) (Ident.int j)
      = .ok true := by
  have hn0 : ¬ n = 0 := by omega
  have hn2 : 2 ≤ n := by omega
  have hm0 : ¬ (n * (n - 1) / 2 = 0) := by
    have h1 : 2 * 1 ≤ n * (n - 1) := Nat.mul_le_mul hn2 (by omega)
    have h2 := Nat.div_le_div_right (c := 2) h1
    simp at h2
    omega
  obtain ⟨g1, hg1run, hg1keys, hg1adj, hg1u, hg1s⟩ := runAddNodes n
  have hkeymem : ∀ k : Nat, k < n → Ident.int k ∈ g1.keys := by
    intro k hk
    rw [hg1keys]
    exact List.mem_map_of_mem _ (List.mem_range.mpr hk)
  obtain ⟨g', hrun, hkeys, hund, hdeg, hmono, hpairs⟩ := runAddEdges (allPairs n) g1
    hg1u
    (by rw [hg1keys]; exact List.Nodup.map ident_int_injective (List.nodup_range n))
    (by
      intro p hp
      obtain ⟨h1, h2⟩ := (allPairs_mem n p.1 p.2).mp (by simpa using hp)
      exact ⟨hkeymem p.1 (by omega), hkeymem p.2 h2⟩)
    (fun p hp => ((allPairs_mem n p.1 p.2).mp (by simpa using hp)).1)
    (fun p _ => by rw [hg1adj, hg1adj]; simp)
    (allPairs_nodup n)
  have hresult : randomNetworkMaxEdges n = .ok g' := by
    rw [randomNetworkMaxEdges, if_neg hn0, hg1run]
    show (if n * (n - 1) / 2 = 0 then Except.ok g1
      else runMutations (fun g p => g.add_edge (Ident.int p.1) (Ident.int p.2)) g1
        (allPairs n)) = Except.ok g'
    rw [if_neg hm0]
    exact hrun
  have hnet : exceptNet (randomNetworkMaxEdges n) = g' := by
    rw [hresult]
    rfl
  have hdeg1 : g1.degreeSum = 0 := by
    rw [Network.degreeSum]
    have hz : g1.keys.map (fun i => g1.degree i) = g1.keys.map (fun _ => 0) :=
      List.map_congr_left (fun x _ => by rw [Network.degree, hg1adj]; rfl)
    rw [hz]
    simp
  have hu' : g'.undirected = true := by rw [hund]; exact hg1u
  refine ⟨?_, ?_, ?_, ?_⟩
  · rw [hresult]
    rfl
  · rw [hnet, Network.size, hkeys, hg1keys]
    simp
  · rw [hnet, Network.number_edges]
    rw [hu']
    simp only [Bool.true_eq_false, if_false]
    rw [hdeg, hdeg1, allPairs_length]
    omega
  · rw [hnet]
    have hmemi : Ident.int i ∈ g'.keys := by rw [hkeys]; exact hkeymem i hi
    have hmemj : Ident.int j ∈ g'.keys := by rw [hkeys]; exact hkeymem j hj
    have hByes : Ident.int j ∈ g'.adj (Ident.int i) ∧
        Ident.int i ∈ g'.adj (Ident.int j) := by
      rcases Nat.lt_or_ge i j with hlt | hge
      · exact hpairs (i, j) ((allPairs_mem n i j).mpr ⟨hlt, hj⟩)
      · have hlt' : j < i := by omega
        have hp := hpairs (j, i) ((allPairs_mem n j i).mpr ⟨hlt', hi⟩)
        exact ⟨hp.2, hp.1⟩
    rw [Network.edge_exists, if_pos hmemi, if_pos hmemj]
    simp [Network.edge_existsB, hu', hByes.1, hByes.2]

/-- Witness for C6 at `n = 5` (the spec's example) and the pair (0, 1). -/
theorem randomNetworkMax_complete_witness :
    exceptOk (randomNetworkMaxEdges 5) = true ∧
    (exceptNet (randomNetworkMaxEdges 5)).size = 5 ∧
    (exceptNet (randomNetworkMaxEdges 5)).number_edges = 5 * (5 - 1) / 2 ∧
    (exceptNet (randomNetworkMaxEdges 5)).edge_exists (Ident.int 0) (Ident.int 1)
      = .ok true :=
  randomNetworkMax_complete 5 0 1 (by decide) (by decide) (by decide)

/-- Projection of the attachment distribution to its candidate nodes: both
branches of `compute_probabilities` pair each of the other nodes with a
weight. -/
theorem compute_probabilities_fst (g : Network) (newId : Ident) :
    (compute_probabilities g newId).map Prod.fst
      = g.keys.filter (fun k => decide (k ≠ newId)) := by
  rw [compute_probabilities]
  split <;>
    (rw [List.map_map]; exact List.map_id _)

/-- C7: `ScaleFreeNetwork(1, 1)` deterministically yields two nodes 0 and 1
joined by exactly one edge, for any selection rule consistent with
`random.choices` (the first growth step has degree sum zero, so the uniform
fallback leaves the single seed node as the only candidate) and any
loop-iteration budget of at least one. -/
theorem scale_free_1_1 (choice : List (Ident × ℚ) → Ident) (fuel : Nat)
    (hfuel : 1 ≤ fuel)
    (hchoice : ∀ l : List (Ident × ℚ), l ≠ [] → choice l ∈ l.map Prod.fst) :
    exceptOk (scaleFreeNetwork choice fuel 1 1) = true ∧
    (exceptNet (scaleFreeNetwork choice fuel 1 1)).size = 2 ∧
    (exceptNet (scaleFreeNetwork choice fuel 1 1)).keys = [Ident.int 0, Ident.int 1] ∧
    (exceptNet (scaleFreeNetwork choice fuel 1 1)).number_edges = 1 ∧
    (exceptNet (scaleFreeNetwork choice fuel 1 1)).edge_exists (Ident.int 0)
      (Ident.int 1) = .ok true := by
  obtain ⟨f, rfl⟩ : ∃ f, fuel = f + 1 := ⟨fuel - 1, by omega⟩
  have hfst : (compute_probabilities sfN1 (Ident.int 1)).map Prod.fst
      = [Ident.int 0] := by
    rw [compute_probabilities_fst]
    rfl
  have hne : compute_probabilities sfN1 (Ident.int 1) ≠ [] := by
    intro hnil
    rw [hnil] at hfst
    simp at hfst
  have hc : choice (compute_probabilities sfN1 (Ident.int 1)) = Ident.int 0 := by
    have h := hchoice (compute_probabilities sfN1 (Ident.int 1)) hne
    rw [hfst] at h
    simpa using h
  have h1 : scaleFreeNetwork choice (f + 1) 1 1
      = (growthStep choice 1 (f + 1) 1 sfN0 0 >>= fun s =>
          List.foldlM (fun g i => growthStep choice 1 (f + 1) 1 g i) s ([] : List Nat)) :=
    rfl
  have h2 : growthStep choice 1 (f + 1) 1 sfN0 0
      = attachLoop choice (Ident.int 1) (compute_probabilities sfN1 (Ident.int 1)) sfN1
          (f + 1) (0 + 1) := rfl
  have hzero : ∀ (fu : Nat) (g : Network),
      attachLoop choice (Ident.int 1) (compute_probabilities sfN1 (Ident.int 1)) g fu 0
        = .ok g := by
    intro fu g
    rw [attachLoop.eq_def]
    simp
  have hcond : Ident.int 0 ≠ Ident.int 1 ∧
      sfN1.edge_existsB (Ident.int 1) (Ident.int 0) = false := by decide
  have hadd : sfN1.add_edge (Ident.int 1) (Ident.int 0) = (sfN2, none) := rfl
  have h3 : attachLoop choice (Ident.int 1)
      (compute_probabilities sfN1 (Ident.int 1)) sfN1 (f + 1) (0 + 1) = .ok sfN2 := by
    rw [attachLoop.eq_def]
    show (let c := choice (compute_probabilities sfN1 (Ident.int 1))
         if c ≠ Ident.int 1 ∧ sfN1.edge_existsB (Ident.int 1) c = false then
           match sfN1.add_edge (Ident.int 1) c with
           | (g', none) =>
             attachLoop choice (Ident.int 1)
               (compute_probabilities sfN1 (Ident.int 1)) g' f (0 + 1 - 1)
           | (_, some e) => .error e
         else attachLoop choice (Ident.int 1)
           (compute_probabilities sfN1 (Ident.int 1)) sfN1 f (0 + 1)) = .ok sfN2
    rw [hc]
    show (if Ident.int 0 ≠ Ident.int 1 ∧
          sfN1.edge_existsB (Ident.int 1) (Ident.int 0) = false then
           match sfN1.add_edge (Ident.int 1) (Ident.int 0) with
           | (g', none) =>
             attachLoop choice (Ident.int 1)
               (compute_probabilities sfN1 (Ident.int 1)) g' f (0 + 1 - 1)
           | (_, some e) => .error e
         else attachLoop choice (Ident.int 1)
           (compute_probabilities sfN1 (Ident.int 1)) sfN1 f (0 + 1)) = .ok sfN2
    rw [if_pos hcond, hadd]
    exact hzero f sfN2
  have h4 : scaleFreeNetwork choice (f + 1) 1 1 = .ok sfN2 := by
    rw [h1, h2, h3]
    rfl
  rw [h4]
  refine ⟨rfl, ?_, ?_, ?_, ?_⟩ <;> decide

/-- Witness for C7 with the always-take-the-head selection rule and one unit
of fuel. -/
theorem scale_free_1_1_witness :
    exceptOk (scaleFreeNetwork headChoice 1 1 1) = true ∧
    (exceptNet (scaleFreeNetwork headChoice 1 1 1)).size = 2 ∧
    (exceptNet (scaleFreeNetwork headChoice 1 1 1)).keys
      = [Ident.int 0, Ident.int 1] ∧
    (exceptNet (scaleFreeNetwork headChoice 1 1 1)).number_edges = 1 ∧
    (exceptNet (scaleFreeNetwork headChoice 1 1 1)).edge_exists (Ident.int 0)
      (Ident.int 1) = .ok true :=
  scale_free_1_1 headChoice 1 (by decide)
    (fun l hl => by
      cases l with
      | nil => exact absurd rfl hl
      | cons p t => simp [headChoice])
